import Mathlib

/-!
Shallow embedding of the relax deformer in `src/python/relax_node.py`
(class `RelaxNode`).

The embedding models the algorithmic core of `RelaxNode.deform` and its
helpers `get_component_average_position` and `get_weighted_componenents`:

* Maya `MPoint`/`MVector` 3D values become `Pt` (a triple of rationals);
  floating-point rounding is abstracted to exact rational arithmetic.
* A division of an `MPoint` by a zero count (which in the source can only
  happen on the point summed from an empty neighbour list, i.e. the origin,
  so every coordinate is IEEE `0.0/0 = NaN`) is modelled by the explicit
  poison value `MPt.nan`, which propagates through all arithmetic just as
  IEEE NaN does for the operations used by the source.
* Maya API calls that raise on an invalid vertex index
  (`MItMeshVertex.setIndex`, `MPointArray.__getitem__`) become `Except Err`
  error results.
* The host geometry iterator is abstracted to the data it supplies:
  the component count / position list (`all_positions`, one entry per
  component index `0..n-1`), the paint weight per index (`weightOf`) and,
  for the separate input mesh used by `MItMeshVertex`, its vertex count `m`
  and its connected-vertices table (`connected`).
-/

/-- A 3D point/vector value with exact rational coordinates. -/
@[ext]
structure Pt where
  x : ℚ
  y : ℚ
  z : ℚ
deriving DecidableEq

namespace Pt

/-- The origin, `OpenMaya.MPoint()`. -/
def zero : Pt := ⟨0, 0, 0⟩

/-- Coordinatewise addition (`MPoint + MVector`). -/
def add (a b : Pt) : Pt := ⟨a.x + b.x, a.y + b.y, a.z + b.z⟩

/-- Coordinatewise subtraction (`MPoint - MPoint`). -/
def sub (a b : Pt) : Pt := ⟨a.x - b.x, a.y - b.y, a.z - b.z⟩

/-- Scaling by a scalar (`MVector * float`, and division as scaling by an
inverse). -/
def smul (c : ℚ) (a : Pt) : Pt := ⟨c * a.x, c * a.y, c * a.z⟩

end Pt

/-- A Maya point value as the deformer sees it: either an ordinary finite
point or the NaN-poisoned value produced by dividing the empty-neighbour
total (the origin) by a zero neighbour count. -/
inductive MPt where
  | nan : MPt
  | pt : Pt → MPt
deriving DecidableEq

namespace MPt

/-- Addition; NaN poisons the result, as in IEEE arithmetic. -/
def add : MPt → MPt → MPt
  | .pt a, .pt b => .pt (a.add b)
  | _, _ => .nan

/-- Subtraction; NaN poisons the result. -/
def sub : MPt → MPt → MPt
  | .pt a, .pt b => .pt (a.sub b)
  | _, _ => .nan

/-- Scalar multiplication; NaN poisons the result (IEEE `NaN * c = NaN`). -/
def smul (c : ℚ) : MPt → MPt
  | .pt a => .pt (Pt.smul c a)
  | .nan => .nan

/-- Division by an integer count.  A zero count only ever divides the
origin in the source (empty neighbour list), where IEEE gives `0.0/0 = NaN`
in every coordinate, modelled as the poison value. -/
def divNat : MPt → ℕ → MPt
  | _, 0 => .nan
  | .nan, _ => .nan
  | .pt a, Nat.succ n => .pt (Pt.smul (1 / ((Nat.succ n : ℕ) : ℚ)) a)

end MPt

/-- The one abort cause of the core: a vertex index outside the range
accepted by `MItMeshVertex.setIndex` or `MPointArray` indexing, raised as an
exception by the Maya API wrappers. -/
inductive Err where
  | invalidIndex : Err
deriving DecidableEq

/-- The accumulation loop of `get_component_average_position` (lines 98-100):
`total_pos += MVector(self.all_positions[j])` over the connected vertices,
failing if some index `j` is outside the position array. -/
def totalPos (all_positions : List MPt) : MPt → List ℕ → Except Err MPt
  | acc, [] => .ok acc
  | acc, j :: rest =>
    match all_positions.get? j with
    | some p => totalPos all_positions (acc.add p) rest
    | none => .error .invalidIndex

/-- `RelaxNode.get_component_average_position` (lines 84-103):
position the vertex iterator on `vtx_index` (fails when the index is not a
vertex of the input mesh, `vtx_index ≥ m`), sum the positions of the
connected vertices starting from `MPoint()`, and divide by the neighbour
count.  There is no guard for an empty neighbour list: the division then is
`origin / 0`, the NaN value. -/
def get_component_average_position (m : ℕ) (connected : ℕ → List ℕ)
    (all_positions : List MPt) (vtx_index : ℕ) : Except Err MPt :=
  if vtx_index < m then
    match totalPos all_positions (.pt Pt.zero) (connected vtx_index) with
    | .ok total => .ok (total.divNat (connected vtx_index).length)
    | .error e => .error e
  else .error .invalidIndex

/-- `RelaxNode.get_weighted_componenents` (lines 105-125): walk the geometry
components in index order and record `index ↦ weight` for every component
whose deformer weight is truthy (nonzero). -/
def get_weighted_componenents (num_components : ℕ) (weightOf : ℕ → ℚ) :
    List (ℕ × ℚ) :=
  (List.range num_components).filterMap fun index =>
    if weightOf index = 0 then none else some (index, weightOf index)

/-- The inner `for index in comp_weight_data` loop of `deform`
(lines 173-186) for one sub-pass with a fixed divisor: for each weighted
component, read its current position and its neighbour average from the
snapshot `all_positions`, and write
`current + ((avg - current) * weight * env * strength) / divisor`
into the accumulating `new_positions` buffer. -/
def relaxPass (m : ℕ) (connected : ℕ → List ℕ) (env_value strength_value : ℚ)
    (divisor : ℕ) (all_positions : List MPt) :
    List (ℕ × ℚ) → List MPt → Except Err (List MPt)
  | [], new_positions => .ok new_positions
  | (index, weight) :: rest, new_positions =>
    match all_positions.get? index with
    | none => .error .invalidIndex
    | some current_pos =>
      match get_component_average_position m connected all_positions index with
      | .error e => .error e
      | .ok average_pos =>
        relaxPass m connected env_value strength_value divisor all_positions rest
          (new_positions.set index
            (current_pos.add
              (((((average_pos.sub current_pos).smul weight).smul
                env_value).smul strength_value).divNat divisor)))

/-- The `for step in range(steps_value)` loop of `deform` (lines 168-189),
parameterised by the remaining list of step indices: each sub-pass reads
from the current `all_positions` snapshot, uses divisor
`steps_value - step`, and its result becomes the snapshot of the next
sub-pass (`self.all_positions.copy(new_positions)`). -/
def stepsLoop (m : ℕ) (connected : ℕ → List ℕ) (env_value strength_value : ℚ)
    (steps_value : ℕ) (comp_weight_data : List (ℕ × ℚ)) :
    List MPt → List ℕ → Except Err (List MPt)
  | all_positions, [] => .ok all_positions
  | all_positions, step :: rest =>
    match relaxPass m connected env_value strength_value (steps_value - step)
        all_positions comp_weight_data all_positions with
    | .error e => .error e
    | .ok new_positions =>
      stepsLoop m connected env_value strength_value steps_value comp_weight_data
        new_positions rest

/-- The `for i in range(iter_value)` loop of `deform` (line 167): run the
steps loop `iter_value` times, threading the position buffer. -/
def itersLoop (m : ℕ) (connected : ℕ → List ℕ) (env_value strength_value : ℚ)
    (steps_value : ℕ) (comp_weight_data : List (ℕ × ℚ)) :
    List MPt → ℕ → Except Err (List MPt)
  | all_positions, 0 => .ok all_positions
  | all_positions, Nat.succ k =>
    match stepsLoop m connected env_value strength_value steps_value
        comp_weight_data all_positions (List.range steps_value) with
    | .error e => .error e
    | .ok ps =>
      itersLoop m connected env_value strength_value steps_value
        comp_weight_data ps k

/-- `RelaxNode.deform` (lines 127-194).  `.ok none` models the early
`return False` paths (nothing to do, no write-back); `.ok (some ps)` models
normal completion with final positions `ps` (write-back plus `return True`);
`.error e` models a Maya exception propagating out of the loops. -/
def deform (m : ℕ) (connected : ℕ → List ℕ) (weightOf : ℕ → ℚ)
    (all_positions : List MPt) (env_value strength_value : ℚ)
    (iter_value steps_value : ℕ) : Except Err (Option (List MPt)) :=
  if env_value = 0 then .ok none
  else if iter_value = 0 then .ok none
  else if steps_value = 0 then .ok none
  else if strength_value = 0 then .ok none
  else
    let comp_weight_data := get_weighted_componenents all_positions.length weightOf
    if comp_weight_data = [] then .ok none
    else
      match itersLoop m connected env_value strength_value steps_value
          comp_weight_data all_positions iter_value with
      | .error e => .error e
      | .ok ps => .ok (some ps)

/-- The externally visible positions after a `deform` call:
`geom_iter.setAllPositions(self.all_positions)` (line 192) is executed
exactly once, after all iterations and sub-steps, and only on normal
completion — on an early `return False` or a propagated exception the
geometry keeps its input positions. -/
def relaxResult (m : ℕ) (connected : ℕ → List ℕ) (weightOf : ℕ → ℚ)
    (all_positions : List MPt) (env_value strength_value : ℚ)
    (iter_value steps_value : ℕ) : List MPt :=
  match deform m connected weightOf all_positions env_value strength_value
      iter_value steps_value with
  | .ok (some ps) => ps
  | _ => all_positions

/-! Concrete meshes used by the spec's test scenarios. -/

/-- The 4-vertex ring `0-1-2-3-0`: every vertex has exactly two neighbours. -/
def ringAdj : ℕ → List ℕ
  | 0 => [1, 3]
  | 1 => [2, 0]
  | 2 => [3, 1]
  | 3 => [0, 2]
  | _ => []

/-- Weight 1 on vertex 0, weight 0 on all other vertices. -/
def ringW : ℕ → ℚ
  | 0 => 1
  | _ => 0

/-- Ring positions `(0,0,0), (1,0,0), (1,1,0), (0,1,0)`. -/
def ringP : List MPt :=
  [.pt ⟨0, 0, 0⟩, .pt ⟨1, 0, 0⟩, .pt ⟨1, 1, 0⟩, .pt ⟨0, 1, 0⟩]

/-- An adjacency table on which every vertex is isolated (no neighbours). -/
def isoAdj : ℕ → List ℕ := fun _ => []

/-- An adjacency table whose vertex 0 lists the out-of-range neighbour 5. -/
def badAdj : ℕ → List ℕ
  | 0 => [5]
  | _ => []

/-- If every component index has weight zero, the weight dictionary built by
`get_weighted_componenents` is empty. -/
theorem get_weighted_componenents_eq_nil (n : ℕ) (weightOf : ℕ → ℚ)
    (h : ∀ i < n, weightOf i = 0) :
    get_weighted_componenents n weightOf = [] := by
  unfold get_weighted_componenents
  rw [List.filterMap_eq_nil_iff]
  intro a ha
  simp [h a (List.mem_range.mp ha)]

/-- C5: on the 4-vertex ring 0-1-2-3-0 at positions
(0,0,0), (1,0,0), (1,1,0), (0,1,0), with weight 1 on vertex 0 only and
envelope = strength = 1, iterations = steps = 1, `deform` completes and the
written-back buffer moves vertex 0 exactly to (1/2, 1/2, 0), the average of
its neighbours 1 and 3 applied with divisor 1, while vertices 1, 2, 3 are
unchanged. -/
theorem deform_ring_scenario :
    deform 4 ringAdj ringW ringP 1 1 1 1 =
      .ok (some [.pt ⟨1/2, 1/2, 0⟩, .pt ⟨1, 0, 0⟩, .pt ⟨1, 1, 0⟩, .pt ⟨0, 1, 0⟩]) ∧
    relaxResult 4 ringAdj ringW ringP 1 1 1 1 =
      [.pt ⟨1/2, 1/2, 0⟩, .pt ⟨1, 0, 0⟩, .pt ⟨1, 1, 0⟩, .pt ⟨0, 1, 0⟩] := by
  constructor <;>
    simp [relaxResult, deform, get_weighted_componenents, itersLoop, stepsLoop, relaxPass,
      get_component_average_position, totalPos, MPt.add, MPt.sub, MPt.smul, MPt.divNat,
      Pt.add, Pt.sub, Pt.smul, Pt.zero, ringAdj, ringW, ringP, List.range_succ]

/-- C2: evaluation of the code at the failing input.  A single weighted
vertex with an empty neighbour list is not skipped: `deform` completes
normally but writes the NaN value produced by the unguarded division
`total_pos / vertices.length()` with a zero neighbour count, instead of
leaving the vertex position unchanged as the spec requires. -/
theorem deform_isolated_vertex_nan :
    deform 1 isoAdj ringW [.pt ⟨0, 0, 0⟩] 1 1 1 1 = .ok (some [MPt.nan]) ∧
    MPt.nan ≠ MPt.pt ⟨0, 0, 0⟩ := by
  constructor
  · simp [deform, get_weighted_componenents, itersLoop, stepsLoop, relaxPass,
      get_component_average_position, totalPos, MPt.add, MPt.sub, MPt.smul, MPt.divNat,
      Pt.add, Pt.sub, Pt.smul, Pt.zero, isoAdj, ringW, List.range_succ]
  · intro h
    exact MPt.noConfusion h

/-- C3: every degenerate-but-valid input short-circuits: a zero envelope,
zero strength, zero iterations, zero steps, or an all-zero weight map makes
`deform` return the no-op signal (`return False`) without error, and the
externally visible positions are exactly the input buffer. -/
theorem deform_noop_guards (m : ℕ) (connected : ℕ → List ℕ) (weightOf : ℕ → ℚ)
    (all_positions : List MPt) (env_value strength_value : ℚ)
    (iter_value steps_value : ℕ)
    (h : env_value = 0 ∨ strength_value = 0 ∨ iter_value = 0 ∨ steps_value = 0 ∨
      ∀ i < all_positions.length, weightOf i = 0) :
    deform m connected weightOf all_positions env_value strength_value
        iter_value steps_value = .ok none ∧
    relaxResult m connected weightOf all_positions env_value strength_value
        iter_value steps_value = all_positions := by
  have hdeform : deform m connected weightOf all_positions env_value strength_value
      iter_value steps_value = .ok none := by
    rcases h with h | h | h | h | h
    · simp [deform, h]
    · simp [deform, h]
    · simp [deform, h]
    · simp [deform, h]
    · simp [deform, get_weighted_componenents_eq_nil _ _ h]
  exact ⟨hdeform, by simp [relaxResult, hdeform]⟩

/-- C3 witness: the guard fires at the concrete input with envelope 0 on the
ring scenario. -/
theorem deform_noop_guards_witness :
    deform 4 ringAdj ringW ringP 0 1 1 1 = .ok none ∧
    relaxResult 4 ringAdj ringW ringP 0 1 1 1 = ringP :=
  deform_noop_guards 4 ringAdj ringW ringP 0 1 1 1 (Or.inl rfl)

/-- C8: if `deform` aborts with a propagated exception, the externally
visible positions are exactly the input positions: the single write-back
`geom_iter.setAllPositions` sits after all iterations and sub-steps and is
never reached on an abort, so no partially updated buffer escapes. -/
theorem deform_abort_preserves_positions (m : ℕ) (connected : ℕ → List ℕ)
    (weightOf : ℕ → ℚ) (all_positions : List MPt) (env_value strength_value : ℚ)
    (iter_value steps_value : ℕ) (e : Err)
    (h : deform m connected weightOf all_positions env_value strength_value
      iter_value steps_value = .error e) :
    relaxResult m connected weightOf all_positions env_value strength_value
      iter_value steps_value = all_positions := by
  unfold relaxResult
  rw [h]

/-- C8 witness: a weighted vertex whose adjacency lists the out-of-range
neighbour 5 makes `deform` abort, and the positions seen outside are the
input buffer. -/
theorem deform_abort_preserves_positions_witness :
    relaxResult 1 badAdj ringW [.pt ⟨0, 0, 0⟩] 1 1 1 1 = [.pt ⟨0, 0, 0⟩] :=
  deform_abort_preserves_positions 1 badAdj ringW [.pt ⟨0, 0, 0⟩] 1 1 1 1
    .invalidIndex
    (by simp [deform, get_weighted_componenents, itersLoop, stepsLoop, relaxPass,
      get_component_average_position, totalPos, badAdj, ringW, List.range_succ])

/-- C10: the early-exit guards are exact-zero tests.  Whenever envelope,
strength, iterations and steps are all nonzero and some component carries a
nonzero weight, `deform` does not take a no-op exit; in particular a
negative envelope is processed like any other value, and on the ring
scenario with envelope -1 vertex 0 moves to (-1/2, -1/2, 0) — away from the
neighbour average (1/2, 1/2, 0) — instead of being clamped, skipped or
rejected. -/
theorem deform_nonzero_guards_proceed (m : ℕ) (connected : ℕ → List ℕ)
    (weightOf : ℕ → ℚ) (all_positions : List MPt) (env_value strength_value : ℚ)
    (iter_value steps_value : ℕ)
    (h1 : env_value ≠ 0) (h2 : strength_value ≠ 0) (h3 : iter_value ≠ 0)
    (h4 : steps_value ≠ 0)
    (h5 : get_weighted_componenents all_positions.length weightOf ≠ []) :
    deform m connected weightOf all_positions env_value strength_value
        iter_value steps_value ≠ .ok none ∧
    deform 4 ringAdj ringW ringP (-1) 1 1 1 =
      .ok (some [.pt ⟨-(1/2), -(1/2), 0⟩, .pt ⟨1, 0, 0⟩, .pt ⟨1, 1, 0⟩,
        .pt ⟨0, 1, 0⟩]) := by
  constructor
  · unfold deform
    simp only [h1, h2, h3, h4, h5, if_false, if_neg, ite_false]
    simp [h1, h2, h3, h4, h5]
    cases hit : itersLoop m connected env_value strength_value steps_value
        (get_weighted_componenents all_positions.length weightOf) all_positions
        iter_value <;> simp [hit]
  · simp [deform, get_weighted_componenents, itersLoop, stepsLoop, relaxPass,
      get_component_average_position, totalPos, MPt.add, MPt.sub, MPt.smul, MPt.divNat,
      Pt.add, Pt.sub, Pt.smul, Pt.zero, ringAdj, ringW, ringP, List.range_succ]

/-- C10 witness: the ring scenario with envelope -1 and all other controls
nonzero is not treated as a no-op. -/
theorem deform_nonzero_guards_proceed_witness :
    deform 4 ringAdj ringW ringP (-1) 1 1 1 ≠ .ok none :=
  (deform_nonzero_guards_proceed 4 ringAdj ringW ringP (-1) 1 1 1
    (by norm_num) (by norm_num) (by norm_num) (by norm_num) (by decide)).1

/-! C1: the descending-denominator sub-step schedule. -/

/-- The divisor sequence `steps, steps-1, ..., 1`. -/
def descendingDivisors : ℕ → List ℕ
  | 0 => []
  | Nat.succ n => Nat.succ n :: descendingDivisors n

/-- A steps loop that consumes an explicit list of divisors, one sub-pass
per entry; the code's loop is this fold applied to the descending divisor
sequence, and the spec's rejected "uniform" alternative is this fold applied
to `List.replicate steps steps`. -/
def divisorFold (m : ℕ) (connected : ℕ → List ℕ) (env_value strength_value : ℚ)
    (comp_weight_data : List (ℕ × ℚ)) :
    List MPt → List ℕ → Except Err (List MPt)
  | all_positions, [] => .ok all_positions
  | all_positions, divisor :: rest =>
    match relaxPass m connected env_value strength_value divisor all_positions
        comp_weight_data all_positions with
    | .error e => .error e
    | .ok new_positions =>
      divisorFold m connected env_value strength_value comp_weight_data
        new_positions rest

/-- The steps loop over step indices equals the divisor fold over the
divisors `steps_value - step` it computes. -/
theorem stepsLoop_eq_divisorFold (m : ℕ) (connected : ℕ → List ℕ)
    (env_value strength_value : ℚ) (steps_value : ℕ)
    (comp_weight_data : List (ℕ × ℚ)) :
    ∀ (l : List ℕ) (all_positions : List MPt),
      stepsLoop m connected env_value strength_value steps_value comp_weight_data
          all_positions l =
        divisorFold m connected env_value strength_value comp_weight_data
          all_positions (l.map fun step => steps_value - step)
  | [], _ => rfl
  | step :: rest, aps => by
    simp only [stepsLoop, divisorFold, List.map_cons]
    cases relaxPass m connected env_value strength_value (steps_value - step) aps
        comp_weight_data aps with
    | error e => rfl
    | ok nps =>
      exact stepsLoop_eq_divisorFold m connected env_value strength_value
        steps_value comp_weight_data rest nps

/-- The divisors `steps - step` for `step` in `range steps` are exactly the
descending sequence `steps, steps-1, ..., 1`. -/
theorem range_map_sub_eq_descending (n : ℕ) :
    ((List.range n).map fun step => n - step) = descendingDivisors n := by
  induction n with
  | zero => rfl
  | succ n ih =>
    rw [List.range_succ_eq_map]
    simp only [List.map_cons, Nat.sub_zero, List.map_map]
    have hfun : ((fun step => n + 1 - step) ∘ Nat.succ) = fun step => n - step := by
      funext s
      simp [Nat.succ_sub_succ]
    rw [hfun, ih]
    rfl

/-- A 2-vertex chain 0-1. -/
def chainAdj : ℕ → List ℕ
  | 0 => [1]
  | 1 => [0]
  | _ => []

/-- Chain positions `(0,0,0), (1,0,0)`. -/
def chainP : List MPt := [.pt ⟨0, 0, 0⟩, .pt ⟨1, 0, 0⟩]

/-- C1: within one outer iteration the sub-passes use the descending divisor
sequence `steps, steps-1, ..., 1` — the steps loop (as invoked by `deform`
on `List.range steps_value`) is the divisor fold over `descendingDivisors`,
so the first sub-pass applies `offset/steps` and the last the full offset —
and this schedule is not the "uniform `offset/steps`, `steps` times"
schedule: on the chain with one weighted vertex and `steps = 2` the code
ends at x = 1 while the uniform schedule ends at x = 3/4. -/
theorem deform_substep_divisor_schedule :
    (∀ (m : ℕ) (connected : ℕ → List ℕ) (env_value strength_value : ℚ)
        (steps_value : ℕ) (comp_weight_data : List (ℕ × ℚ))
        (all_positions : List MPt),
      stepsLoop m connected env_value strength_value steps_value comp_weight_data
          all_positions (List.range steps_value) =
        divisorFold m connected env_value strength_value comp_weight_data
          all_positions (descendingDivisors steps_value)) ∧
    stepsLoop 2 chainAdj 1 1 2 [(0, 1)] chainP (List.range 2) =
      .ok [.pt ⟨1, 0, 0⟩, .pt ⟨1, 0, 0⟩] ∧
    divisorFold 2 chainAdj 1 1 [(0, 1)] chainP (List.replicate 2 2) =
      .ok [.pt ⟨3/4, 0, 0⟩, .pt ⟨1, 0, 0⟩] ∧
    (Except.ok [MPt.pt ⟨1, 0, 0⟩, MPt.pt ⟨1, 0, 0⟩] :
        Except Err (List MPt)) ≠
      .ok [.pt ⟨3/4, 0, 0⟩, .pt ⟨1, 0, 0⟩] := by
  refine ⟨fun m connected env_value strength_value steps_value w aps => ?_, ?_, ?_, ?_⟩
  · rw [stepsLoop_eq_divisorFold, range_map_sub_eq_descending]
  · norm_num [stepsLoop, relaxPass, get_component_average_position, totalPos,
      MPt.add, MPt.sub, MPt.smul, MPt.divNat, Pt.add, Pt.sub, Pt.smul, Pt.zero,
      chainAdj, chainP, List.range_succ]
  · norm_num [divisorFold, relaxPass, get_component_average_position, totalPos,
      MPt.add, MPt.sub, MPt.smul, MPt.divNat, Pt.add, Pt.sub, Pt.smul, Pt.zero,
      chainAdj, chainP, List.replicate]
  · norm_num [Pt.ext_iff]

/-! C6: vertices outside the weight dictionary never move. -/

/-- A sub-pass only writes at indices that occur in the weight list: any
other index keeps its entry of the accumulating buffer. -/
theorem relaxPass_get?_unweighted (m : ℕ) (connected : ℕ → List ℕ)
    (env_value strength_value : ℚ) (divisor : ℕ) (all_positions : List MPt) :
    ∀ (ws : List (ℕ × ℚ)) (new_positions out : List MPt) (v : ℕ),
      v ∉ ws.map Prod.fst →
      relaxPass m connected env_value strength_value divisor all_positions ws
          new_positions = .ok out →
      out.get? v = new_positions.get? v := by
  intro ws
  induction ws with
  | nil =>
    intro nps out v _ h
    simp only [relaxPass, Except.ok.injEq] at h
    subst h
    rfl
  | cons head tail ih =>
    intro nps out v hv h
    obtain ⟨index, weight⟩ := head
    simp only [List.map_cons, List.mem_cons, not_or] at hv
    obtain ⟨hvi, hvt⟩ := hv
    simp only [relaxPass] at h
    split at h
    · simp at h
    · split at h
      · simp at h
      · rw [ih _ out v hvt h]
        exact List.get?_set_ne _ _ fun hh => hvi hh.symm

/-- The steps loop never writes at an index outside the weight list. -/
theorem stepsLoop_get?_unweighted (m : ℕ) (connected : ℕ → List ℕ)
    (env_value strength_value : ℚ) (steps_value : ℕ)
    (comp_weight_data : List (ℕ × ℚ)) (v : ℕ)
    (hv : v ∉ comp_weight_data.map Prod.fst) :
    ∀ (l : List ℕ) (all_positions out : List MPt),
      stepsLoop m connected env_value strength_value steps_value comp_weight_data
          all_positions l = .ok out →
      out.get? v = all_positions.get? v := by
  intro l
  induction l with
  | nil =>
    intro aps out h
    simp only [stepsLoop, Except.ok.injEq] at h
    subst h
    rfl
  | cons step rest ih =>
    intro aps out h
    simp only [stepsLoop] at h
    split at h
    · simp at h
    · next nps heq =>
      rw [ih _ out h]
      exact relaxPass_get?_unweighted m connected env_value strength_value _ aps
        comp_weight_data aps nps v hv heq

/-- The iterations loop never writes at an index outside the weight list. -/
theorem itersLoop_get?_unweighted (m : ℕ) (connected : ℕ → List ℕ)
    (env_value strength_value : ℚ) (steps_value : ℕ)
    (comp_weight_data : List (ℕ × ℚ)) (v : ℕ)
    (hv : v ∉ comp_weight_data.map Prod.fst) :
    ∀ (iter_value : ℕ) (all_positions out : List MPt),
      itersLoop m connected env_value strength_value steps_value comp_weight_data
          all_positions iter_value = .ok out →
      out.get? v = all_positions.get? v := by
  intro k
  induction k with
  | zero =>
    intro aps out h
    simp only [itersLoop, Except.ok.injEq] at h
    subst h
    rfl
  | succ k ih =>
    intro aps out h
    simp only [itersLoop] at h
    split at h
    · simp at h
    · next nps heq =>
      rw [ih _ out h]
      exact stepsLoop_get?_unweighted m connected env_value strength_value
        steps_value comp_weight_data v hv _ aps nps heq

/-- A vertex with weight zero never gets a key in the weight dictionary. -/
theorem not_mem_weighted_keys (n : ℕ) (weightOf : ℕ → ℚ) (v : ℕ)
    (hv : weightOf v = 0) :
    v ∉ (get_weighted_componenents n weightOf).map Prod.fst := by
  intro hmem
  unfold get_weighted_componenents at hmem
  rcases List.mem_map.mp hmem with ⟨⟨i, w⟩, hiw, hfst⟩
  rcases List.mem_filterMap.mp hiw with ⟨a, _, ha⟩
  by_cases h0 : weightOf a = 0
  · rw [if_pos h0] at ha
    cases ha
  · rw [if_neg h0] at ha
    injection ha with ha'
    cases ha'
    simp only at hfst
    subst hfst
    exact h0 hv

/-- C6: a vertex whose weight is zero (equivalently, absent from the sparse
weight dictionary) keeps its input position across the whole relax call,
whatever the iteration and step counts and however its neighbours move; and
its unchanged position still feeds the neighbour averages of weighted
vertices: on the chain 0-1 with only vertex 0 weighted, moving the
unweighted vertex 1 from (1,0,0) to (3,0,0) changes vertex 0's relaxed
position from (1,0,0) to (3,0,0) while vertex 1 itself never moves. -/
theorem deform_unweighted_stable (m : ℕ) (connected : ℕ → List ℕ)
    (weightOf : ℕ → ℚ) (all_positions : List MPt) (env_value strength_value : ℚ)
    (iter_value steps_value : ℕ) (v : ℕ) (hv : weightOf v = 0) :
    (relaxResult m connected weightOf all_positions env_value strength_value
        iter_value steps_value).get? v = all_positions.get? v ∧
    relaxResult 2 chainAdj ringW [.pt ⟨0, 0, 0⟩, .pt ⟨1, 0, 0⟩] 1 1 1 1 =
      [.pt ⟨1, 0, 0⟩, .pt ⟨1, 0, 0⟩] ∧
    relaxResult 2 chainAdj ringW [.pt ⟨0, 0, 0⟩, .pt ⟨3, 0, 0⟩] 1 1 1 1 =
      [.pt ⟨3, 0, 0⟩, .pt ⟨3, 0, 0⟩] := by
  refine ⟨?_, ?_, ?_⟩
  · unfold relaxResult
    cases hdef : deform m connected weightOf all_positions env_value strength_value
        iter_value steps_value with
    | error e => rfl
    | ok o =>
      cases o with
      | none => rfl
      | some ps =>
        simp only [deform] at hdef
        split_ifs at hdef
        · simp at hdef
        · simp at hdef
        · simp at hdef
        · simp at hdef
        · simp at hdef
        · split at hdef
          · simp at hdef
          · next ps' heq =>
            injection hdef with h1
            injection h1 with h2
            subst h2
            exact itersLoop_get?_unweighted m connected env_value strength_value
              steps_value _ v
              (not_mem_weighted_keys all_positions.length weightOf v hv)
              iter_value all_positions ps' heq
  · simp [relaxResult, deform, get_weighted_componenents, itersLoop, stepsLoop,
      relaxPass, get_component_average_position, totalPos, MPt.add, MPt.sub,
      MPt.smul, MPt.divNat, Pt.add, Pt.sub, Pt.smul, Pt.zero, chainAdj, ringW,
      List.range_succ]
  · simp [relaxResult, deform, get_weighted_componenents, itersLoop, stepsLoop,
      relaxPass, get_component_average_position, totalPos, MPt.add, MPt.sub,
      MPt.smul, MPt.divNat, Pt.add, Pt.sub, Pt.smul, Pt.zero, chainAdj, ringW,
      List.range_succ]

/-- C6 witness: on the ring scenario run for 5 iterations of 3 sub-steps,
the unweighted vertex 2 keeps its input position. -/
theorem deform_unweighted_stable_witness :
    (relaxResult 4 ringAdj ringW ringP 1 1 5 3).get? 2 = ringP.get? 2 :=
  (deform_unweighted_stable 4 ringAdj ringW ringP 1 1 5 3 2 rfl).1

/-! C4: a sub-pass reads one snapshot, so the visiting order is irrelevant. -/

/-- The condition under which processing one weighted component raises no
exception: its index is inside the position buffer and the input mesh, and
every listed neighbour is inside the position buffer. -/
def vertexOk (m : ℕ) (connected : ℕ → List ℕ) (all_positions : List MPt)
    (index : ℕ) : Prop :=
  index < all_positions.length ∧ index < m ∧
    ∀ j ∈ connected index, j < all_positions.length

instance (m : ℕ) (connected : ℕ → List ℕ) (all_positions : List MPt)
    (index : ℕ) : Decidable (vertexOk m connected all_positions index) := by
  unfold vertexOk
  infer_instance

/-- Total-function version of the neighbour accumulation loop. -/
def sumTotal (all_positions : List MPt) : MPt → List ℕ → MPt
  | acc, [] => acc
  | acc, j :: rest =>
    sumTotal all_positions (acc.add ((all_positions.get? j).getD .nan)) rest

/-- Total-function version of `get_component_average_position`. -/
def avgOf (connected : ℕ → List ℕ) (all_positions : List MPt) (index : ℕ) :
    MPt :=
  (sumTotal all_positions (.pt Pt.zero) (connected index)).divNat
    (connected index).length

/-- Total-function version of the per-component update of one sub-pass;
its value depends only on the snapshot, never on the buffer being written. -/
def newPosOf (connected : ℕ → List ℕ) (env_value strength_value : ℚ)
    (divisor : ℕ) (all_positions : List MPt) (e : ℕ × ℚ) : MPt :=
  let current_pos := (all_positions.get? e.1).getD .nan
  current_pos.add
    ((((((avgOf connected all_positions e.1).sub current_pos).smul e.2).smul
      env_value).smul strength_value).divNat divisor)

/-- When every neighbour index is in range the accumulation loop succeeds
and computes `sumTotal`. -/
theorem totalPos_ok (all_positions : List MPt) :
    ∀ (vs : List ℕ) (acc : MPt), (∀ j ∈ vs, j < all_positions.length) →
      totalPos all_positions acc vs = .ok (sumTotal all_positions acc vs)
  | [], _, _ => rfl
  | j :: rest, acc, h => by
    have hj : j < all_positions.length := h j (List.mem_cons_self j rest)
    cases hg : all_positions.get? j with
    | none =>
      rw [List.get?_eq_none] at hg
      omega
    | some p =>
      simp only [totalPos, sumTotal, hg, Option.getD_some]
      exact totalPos_ok all_positions rest (acc.add p) fun x hx =>
        h x (List.mem_cons_of_mem j hx)

/-- When some neighbour index is out of range the accumulation loop fails. -/
theorem totalPos_error (all_positions : List MPt) :
    ∀ (vs : List ℕ) (acc : MPt), (∃ j ∈ vs, ¬ j < all_positions.length) →
      totalPos all_positions acc vs = .error .invalidIndex
  | [], _, h => by
    obtain ⟨j, hj, _⟩ := h
    cases hj
  | j :: rest, acc, h => by
    cases hg : all_positions.get? j with
    | none => simp only [totalPos, hg]
    | some p =>
      have hj : j < all_positions.length := by
        by_contra hc
        rw [List.get?_eq_none.mpr (Nat.le_of_not_lt hc)] at hg
        cases hg
      simp only [totalPos, hg]
      apply totalPos_error all_positions rest
      obtain ⟨j', hj', hbad⟩ := h
      rcases List.mem_cons.mp hj' with rfl | hmem
      · exact absurd hj hbad
      · exact ⟨j', hmem, hbad⟩

/-- Under `vertexOk` the neighbour average call succeeds and computes
`avgOf`. -/
theorem get_component_average_position_ok (m : ℕ) (connected : ℕ → List ℕ)
    (all_positions : List MPt) (index : ℕ)
    (h : vertexOk m connected all_positions index) :
    get_component_average_position m connected all_positions index =
      .ok (avgOf connected all_positions index) := by
  obtain ⟨-, hm, hnbr⟩ := h
  unfold get_component_average_position avgOf
  rw [if_pos hm, totalPos_ok all_positions (connected index) (.pt Pt.zero) hnbr]

/-- Under `vertexOk` for every entry, a sub-pass succeeds and equals the
left fold that writes `newPosOf` (computed from the snapshot only) at each
weighted index. -/
theorem relaxPass_ok (m : ℕ) (connected : ℕ → List ℕ)
    (env_value strength_value : ℚ) (divisor : ℕ) (all_positions : List MPt) :
    ∀ (ws : List (ℕ × ℚ)) (new_positions : List MPt),
      (∀ e ∈ ws, vertexOk m connected all_positions e.1) →
      relaxPass m connected env_value strength_value divisor all_positions ws
          new_positions =
        .ok (ws.foldl
          (fun acc e => acc.set e.1
            (newPosOf connected env_value strength_value divisor all_positions e))
          new_positions)
  | [], _, _ => rfl
  | (index, weight) :: rest, nps, h => by
    obtain ⟨hlen, hm, hnbr⟩ := h (index, weight) (List.mem_cons_self _ _)
    cases hg : all_positions.get? index with
    | none =>
      rw [List.get?_eq_none] at hg
      omega
    | some p =>
      simp only [relaxPass, hg,
        get_component_average_position_ok m connected all_positions index
          ⟨hlen, hm, hnbr⟩, List.foldl_cons]
      have hnew : newPosOf connected env_value strength_value divisor
          all_positions (index, weight) =
          p.add ((((((avgOf connected all_positions index).sub p).smul
            weight).smul env_value).smul strength_value).divNat divisor) := by
        simp only [newPosOf, hg, Option.getD_some]
      rw [hnew]
      exact relaxPass_ok m connected env_value strength_value divisor
        all_positions rest _ fun e he => h e (List.mem_cons_of_mem _ he)

/-- If some entry violates `vertexOk`, the sub-pass aborts with the
invalid-index error, in whatever order the entries are processed. -/
theorem relaxPass_error (m : ℕ) (connected : ℕ → List ℕ)
    (env_value strength_value : ℚ) (divisor : ℕ) (all_positions : List MPt) :
    ∀ (ws : List (ℕ × ℚ)) (new_positions : List MPt),
      (∃ e ∈ ws, ¬ vertexOk m connected all_positions e.1) →
      relaxPass m connected env_value strength_value divisor all_positions ws
          new_positions = .error .invalidIndex
  | [], _, h => by
    obtain ⟨e, he, _⟩ := h
    cases he
  | (index, weight) :: rest, nps, h => by
    by_cases hok : vertexOk m connected all_positions index
    · obtain ⟨hlen, hm, hnbr⟩ := hok
      cases hg : all_positions.get? index with
      | none =>
        rw [List.get?_eq_none] at hg
        omega
      | some p =>
        simp only [relaxPass, hg,
          get_component_average_position_ok m connected all_positions index
            ⟨hlen, hm, hnbr⟩]
        apply relaxPass_error m connected env_value strength_value divisor
          all_positions rest
        obtain ⟨e, he, hbad⟩ := h
        rcases List.mem_cons.mp he with rfl | hmem
        · exact absurd ⟨hlen, hm, hnbr⟩ hbad
        · exact ⟨e, hmem, hbad⟩
    · by_cases h1 : index < all_positions.length
      · cases hg : all_positions.get? index with
        | none =>
          rw [List.get?_eq_none] at hg
          omega
        | some p =>
          by_cases h2 : index < m
          · have h3 : ∃ j ∈ connected index, ¬ j < all_positions.length := by
              by_contra hc
              push_neg at hc
              exact hok ⟨h1, h2, fun j hj => hc j hj⟩
            have havg : get_component_average_position m connected
                all_positions index = .error .invalidIndex := by
              unfold get_component_average_position
              rw [if_pos h2, totalPos_error all_positions (connected index)
                (.pt Pt.zero) h3]
            simp only [relaxPass, hg, havg]
          · have havg : get_component_average_position m connected
                all_positions index = .error .invalidIndex := by
              unfold get_component_average_position
              rw [if_neg h2]
            simp only [relaxPass, hg, havg]
      · have hg : all_positions.get? index = none :=
          List.get?_eq_none.mpr (Nat.le_of_not_lt h1)
        simp only [relaxPass, hg]

/-- C4: within one sub-pass every update is computed against the snapshot
`all_positions` taken at the start of the pass, so processing the weighted
components in any order (any permutation of the weight list, whose keys are
distinct) produces the identical result — the same output buffer on
success, and the same error on abort. -/
theorem relax_pass_order_independent (m : ℕ) (connected : ℕ → List ℕ)
    (env_value strength_value : ℚ) (divisor : ℕ)
    (all_positions new_positions : List MPt) (ws ws' : List (ℕ × ℚ))
    (hperm : ws.Perm ws') (hnd : (ws.map Prod.fst).Nodup) :
    relaxPass m connected env_value strength_value divisor all_positions ws
        new_positions =
      relaxPass m connected env_value strength_value divisor all_positions ws'
        new_positions := by
  by_cases hok : ∀ e ∈ ws, vertexOk m connected all_positions e.1
  · rw [relaxPass_ok m connected env_value strength_value divisor all_positions
      ws new_positions hok,
      relaxPass_ok m connected env_value strength_value divisor all_positions
      ws' new_positions (fun e he => hok e (hperm.mem_iff.mpr he))]
    congr 1
    apply hperm.foldl_eq'
    intro x hx y hy z
    by_cases hxy : x = y
    · rw [hxy]
    · have hne : x.1 ≠ y.1 := fun hh =>
        hxy (List.inj_on_of_nodup_map hnd hx hy hh)
      exact List.set_comm _ _ z hne
  · push_neg at hok
    obtain ⟨e, he, hbad⟩ := hok
    rw [relaxPass_error m connected env_value strength_value divisor
      all_positions ws new_positions ⟨e, he, hbad⟩,
      relaxPass_error m connected env_value strength_value divisor
      all_positions ws' new_positions ⟨e, hperm.mem_iff.mp he, hbad⟩]

/-- C4 witness: on the chain, processing the two weighted components in
either order gives the same sub-pass result. -/
theorem relax_pass_order_independent_witness :
    relaxPass 2 chainAdj 1 1 1 chainP [(0, 1), (1, 2)] chainP =
      relaxPass 2 chainAdj 1 1 1 chainP [(1, 2), (0, 1)] chainP :=
  relax_pass_order_independent 2 chainAdj 1 1 1 chainP chainP
    [(0, 1), (1, 2)] [(1, 2), (0, 1)] (List.Perm.swap _ _ _) (by decide)

/-! C7: the per-vertex update equals the spec's mean/offset/divisor formula. -/

/-- Spec-side arithmetic mean of the neighbour positions: sum the neighbour
positions and divide by the neighbour count, with no distance or edge-length
weighting. -/
def specMean (connected : ℕ → List ℕ) (positions : List Pt) (v : ℕ) : Pt :=
  Pt.smul (1 / ((connected v).length : ℚ))
    (((connected v).map fun j => positions.getD j Pt.zero).foldr Pt.add Pt.zero)

/-- Spec-side per-sub-pass update: offset
`(mean - position(v)) * weight * envelope * strength`, new position
`position(v) + offset / divisor`. -/
def specUpdate (connected : ℕ → List ℕ) (positions : List Pt)
    (env_value strength_value : ℚ) (divisor : ℕ) (v : ℕ) (w : ℚ) : Pt :=
  let p := positions.getD v Pt.zero
  p.add (Pt.smul (1 / (divisor : ℚ))
    (Pt.smul (w * env_value * strength_value)
      ((specMean connected positions v).sub p)))

theorem Pt.add_comm (a b : Pt) : a.add b = b.add a := by
  simp only [Pt.add, Pt.ext_iff]
  exact ⟨by ring, by ring, by ring⟩

theorem Pt.add_assoc (a b c : Pt) : (a.add b).add c = a.add (b.add c) := by
  simp only [Pt.add, Pt.ext_iff]
  exact ⟨by ring, by ring, by ring⟩

theorem Pt.add_zero (a : Pt) : a.add Pt.zero = a := by
  simp only [Pt.add, Pt.zero, Pt.ext_iff]
  exact ⟨by ring, by ring, by ring⟩

theorem Pt.zero_add (a : Pt) : Pt.zero.add a = a := by
  rw [Pt.add_comm, Pt.add_zero]

theorem Pt.smul_smul (a b : ℚ) (p : Pt) :
    Pt.smul a (Pt.smul b p) = Pt.smul (a * b) p := by
  simp only [Pt.smul, Pt.ext_iff]
  exact ⟨by ring, by ring, by ring⟩

/-- A fold of set-updates never touches an index absent from the key list. -/
theorem foldl_set_get?_of_not_mem (F : ℕ × ℚ → MPt) :
    ∀ (ws : List (ℕ × ℚ)) (nps : List MPt) (v : ℕ),
      v ∉ ws.map Prod.fst →
      (ws.foldl (fun acc e => acc.set e.1 (F e)) nps).get? v = nps.get? v
  | [], _, _, _ => rfl
  | (i, w') :: rest, nps, v, hv => by
    simp only [List.map_cons, List.mem_cons, not_or] at hv
    obtain ⟨hvi, hvr⟩ := hv
    simp only [List.foldl_cons]
    rw [foldl_set_get?_of_not_mem F rest _ v hvr]
    exact List.get?_set_ne _ _ fun hh => hvi hh.symm

/-- A fold of set-updates writes exactly `F (v, w)` at the key `v` of a
member entry, when the keys are distinct. -/
theorem foldl_set_get?_of_mem (F : ℕ × ℚ → MPt) :
    ∀ (ws : List (ℕ × ℚ)) (nps : List MPt) (v : ℕ) (w : ℚ),
      (ws.map Prod.fst).Nodup → (v, w) ∈ ws →
      (ws.foldl (fun acc e => acc.set e.1 (F e)) nps).get? v =
        if v < nps.length then some (F (v, w)) else none
  | [], _, _, _, _, hmem => absurd hmem (List.not_mem_nil _)
  | (i, w') :: rest, nps, v, w, hnd, hmem => by
    simp only [List.map_cons, List.nodup_cons] at hnd
    obtain ⟨hnotin, hndrest⟩ := hnd
    simp only [List.foldl_cons]
    rcases List.mem_cons.mp hmem with heq | hmem'
    · injection heq with hv hw
      subst hv
      subst hw
      rw [foldl_set_get?_of_not_mem F rest _ v hnotin]
      by_cases hlt : v < nps.length
      · rw [if_pos hlt, List.get?_set_eq_of_lt _ hlt]
      · rw [if_neg hlt, List.get?_eq_none.mpr]
        rw [List.length_set]
        omega
    · have hne : v ≠ i := by
        intro hvi
        subst hvi
        exact hnotin (List.mem_map.mpr ⟨(v, w), hmem', rfl⟩)
      rw [foldl_set_get?_of_mem F rest _ v w hndrest hmem', List.length_set]

/-- Over a NaN-free buffer with in-range neighbours, the accumulation loop
computes the pointwise fold of `Pt.add`. -/
theorem sumTotal_map_pt (positions : List Pt) :
    ∀ (vs : List ℕ) (acc : Pt), (∀ j ∈ vs, j < positions.length) →
      sumTotal (positions.map MPt.pt) (.pt acc) vs =
        .pt (vs.foldl (fun a j => a.add (positions.getD j Pt.zero)) acc)
  | [], _, _ => rfl
  | j :: rest, acc, h => by
    have hj : j < positions.length := h j (List.mem_cons_self _ _)
    have hp : positions.get? j = some (positions.getD j Pt.zero) := by
      cases hg : positions.get? j with
      | none =>
        rw [List.get?_eq_none] at hg
        omega
      | some p => rw [List.getD_eq_get?, hg, Option.getD_some]
    simp only [sumTotal, List.foldl_cons, List.get?_map, hp, Option.map_some',
      Option.getD_some, MPt.add]
    exact sumTotal_map_pt positions rest _ fun x hx =>
      h x (List.mem_cons_of_mem _ hx)

/-- Accumulating with `Pt.add` from the left equals adding the spec's
foldr-sum of the mapped positions: `Pt.add` is associative/commutative. -/
theorem foldl_add_eq_foldr (getp : ℕ → Pt) :
    ∀ (vs : List ℕ) (acc : Pt),
      vs.foldl (fun a j => a.add (getp j)) acc =
        acc.add ((vs.map getp).foldr Pt.add Pt.zero)
  | [], acc => by
    simp only [List.foldl_nil, List.map_nil, List.foldr_nil, Pt.add_zero]
  | j :: rest, acc => by
    simp only [List.foldl_cons, List.map_cons, List.foldr_cons]
    rw [foldl_add_eq_foldr getp rest (acc.add (getp j)), Pt.add_assoc]

/-- Dividing a finite point by a nonzero count scales it by the reciprocal. -/
theorem MPt.divNat_pt_of_ne_zero (a : Pt) (n : ℕ) (hn : n ≠ 0) :
    (MPt.pt a).divNat n = .pt (Pt.smul (1 / (n : ℚ)) a) := by
  cases n with
  | zero => exact absurd rfl hn
  | succ k => rfl

/-- Over a NaN-free buffer, the code's neighbour average is the spec's
arithmetic mean whenever the neighbour list is nonempty and in range. -/
theorem avgOf_map_pt (connected : ℕ → List ℕ) (positions : List Pt) (v : ℕ)
    (hnbr : connected v ≠ [])
    (hin : ∀ j ∈ connected v, j < positions.length) :
    avgOf connected (positions.map MPt.pt) v =
      .pt (specMean connected positions v) := by
  unfold avgOf specMean
  rw [sumTotal_map_pt positions (connected v) Pt.zero hin,
    foldl_add_eq_foldr (fun j => positions.getD j Pt.zero) (connected v) Pt.zero,
    Pt.zero_add,
    MPt.divNat_pt_of_ne_zero _ _ (fun hh => hnbr (List.length_eq_zero.mp hh))]

/-- Over a NaN-free buffer the code's per-component update value is exactly
the spec formula. -/
theorem newPosOf_map_pt (connected : ℕ → List ℕ) (positions : List Pt)
    (env_value strength_value : ℚ) (divisor : ℕ) (v : ℕ) (w : ℚ)
    (hd : divisor ≠ 0) (hnbr : connected v ≠ [])
    (hvlen : v < positions.length)
    (hin : ∀ j ∈ connected v, j < positions.length) :
    newPosOf connected env_value strength_value divisor
        (positions.map MPt.pt) (v, w) =
      .pt (specUpdate connected positions env_value strength_value divisor v w) := by
  have hp : positions.get? v = some (positions.getD v Pt.zero) := by
    cases hg : positions.get? v with
    | none =>
      rw [List.get?_eq_none] at hg
      omega
    | some p => rw [List.getD_eq_get?, hg, Option.getD_some]
  have hdiv : ∀ a : Pt, (MPt.pt a).divNat divisor =
      .pt (Pt.smul (1 / (divisor : ℚ)) a) := fun a =>
    MPt.divNat_pt_of_ne_zero a divisor hd
  simp only [newPosOf, specUpdate, List.get?_map, hp, Option.map_some',
    Option.getD_some, avgOf_map_pt connected positions v hnbr hin,
    MPt.sub, MPt.smul, hdiv, MPt.add, Pt.smul_smul, MPt.pt.injEq]
  simp only [Pt.add, Pt.sub, Pt.smul, Pt.ext_iff]
  exact ⟨by ring, by ring, by ring⟩

/-- C7: for every weighted vertex with a nonempty, in-range neighbour set,
processed over a NaN-free snapshot, the sub-pass writes at that vertex
exactly the spec formula: the plain arithmetic mean of the neighbour
positions, the offset `(mean - position) * weight * envelope * strength`,
and the new position `position + offset / divisor`. -/
theorem relax_pass_spec_formula (m : ℕ) (connected : ℕ → List ℕ)
    (positions : List Pt) (env_value strength_value : ℚ) (divisor : ℕ)
    (ws : List (ℕ × ℚ)) (out : List MPt) (v : ℕ) (w : ℚ)
    (hnd : (ws.map Prod.fst).Nodup) (hmem : (v, w) ∈ ws)
    (hok : ∀ e ∈ ws, vertexOk m connected (positions.map MPt.pt) e.1)
    (hnbr : connected v ≠ []) (hd : divisor ≠ 0)
    (hout : relaxPass m connected env_value strength_value divisor
        (positions.map MPt.pt) ws (positions.map MPt.pt) = .ok out) :
    out.get? v =
      some (.pt (specUpdate connected positions env_value strength_value
        divisor v w)) := by
  have h1 := relaxPass_ok m connected env_value strength_value divisor
    (positions.map MPt.pt) ws (positions.map MPt.pt) hok
  rw [hout] at h1
  injection h1 with h1
  subst h1
  obtain ⟨hvlen, -, hnbrlen⟩ := hok (v, w) hmem
  rw [foldl_set_get?_of_mem _ ws _ v w hnd hmem, if_pos hvlen]
  rw [List.length_map] at hvlen
  have hin : ∀ j ∈ connected v, j < positions.length := by
    intro j hj
    have := hnbrlen j hj
    rwa [List.length_map] at this
  rw [newPosOf_map_pt connected positions env_value strength_value divisor v w
    hd hnbr hvlen hin]

/-- Pure-`Pt` ring positions used to instantiate the spec formula. -/
def ringPpure : List Pt := [⟨0, 0, 0⟩, ⟨1, 0, 0⟩, ⟨1, 1, 0⟩, ⟨0, 1, 0⟩]

/-- C7 witness: on the ring snapshot, the sub-pass output at the weighted
vertex 0 is the spec formula value. -/
theorem relax_pass_spec_formula_witness :
    ([.pt ⟨1/2, 1/2, 0⟩, .pt ⟨1, 0, 0⟩, .pt ⟨1, 1, 0⟩, .pt ⟨0, 1, 0⟩] :
        List MPt).get? 0 =
      some (.pt (specUpdate ringAdj ringPpure 1 1 1 0 1)) :=
  relax_pass_spec_formula 4 ringAdj ringPpure 1 1 1 [(0, 1)]
    [.pt ⟨1/2, 1/2, 0⟩, .pt ⟨1, 0, 0⟩, .pt ⟨1, 1, 0⟩, .pt ⟨0, 1, 0⟩] 0 1
    (by decide) (by decide) (by decide) (by decide) (by decide)
    (by simp [relaxPass, get_component_average_position, totalPos, ringPpure,
      MPt.add, MPt.sub, MPt.smul, MPt.divNat, Pt.add, Pt.sub, Pt.smul, Pt.zero,
      ringAdj])

/-! C9: convergence of the smoothing on the cube. -/

/-- The cube graph on vertices 0..7 (bit i of the index gives the sign of
coordinate i): each vertex is adjacent to the three indices with one bit
flipped. -/
def cubeAdj : ℕ → List ℕ
  | 0 => [1, 2, 4]
  | 1 => [0, 3, 5]
  | 2 => [3, 0, 6]
  | 3 => [2, 1, 7]
  | 4 => [5, 6, 0]
  | 5 => [4, 7, 1]
  | 6 => [7, 4, 2]
  | 7 => [6, 5, 3]
  | _ => []

/-- Uniform weight 1 on every vertex. -/
def cubeW : ℕ → ℚ := fun _ => 1

/-- The cube corners at scale `c`. -/
def cubeP (c : ℚ) : List Pt :=
  [⟨-c, -c, -c⟩, ⟨c, -c, -c⟩, ⟨-c, c, -c⟩, ⟨c, c, -c⟩,
   ⟨-c, -c, c⟩, ⟨c, -c, c⟩, ⟨-c, c, c⟩, ⟨c, c, c⟩]

/-- One full-strength sub-pass (divisor 1) on the scaled cube contracts it
by the factor 1/3: each corner moves to the mean of its three neighbours. -/
theorem cube_pass (c : ℚ) :
    relaxPass 8 cubeAdj 1 1 1 ((cubeP c).map MPt.pt)
        (get_weighted_componenents 8 cubeW) ((cubeP c).map MPt.pt) =
      .ok ((cubeP (c / 3)).map MPt.pt) := by
  simp only [get_weighted_componenents, cubeW, List.range_succ, List.range_zero,
    List.nil_append, List.cons_append, List.filterMap_cons, List.filterMap_nil,
    one_ne_zero, if_false, ite_false]
  simp [relaxPass, get_component_average_position, totalPos, cubeAdj, cubeP,
    MPt.add, MPt.sub, MPt.smul, MPt.divNat, Pt.add, Pt.sub, Pt.smul, Pt.zero,
    Pt.ext_iff]
  ring_nf

/-- Closed form of the iterations loop on the cube with `steps = 1`:
after `k` iterations the corners sit at scale `c / 3^k`. -/
theorem cube_itersLoop : ∀ (k : ℕ) (c : ℚ),
    itersLoop 8 cubeAdj 1 1 1 (get_weighted_componenents 8 cubeW)
        ((cubeP c).map MPt.pt) k =
      .ok ((cubeP (c / 3 ^ k)).map MPt.pt)
  | 0, c => by
    simp [itersLoop]
  | Nat.succ k, c => by
    have hrange : List.range 1 = [0] := by simp [List.range_succ]
    have hscale : c / 3 / 3 ^ k = c / 3 ^ (k + 1) := by
      rw [div_div]
      ring_nf
    simp only [itersLoop, stepsLoop, hrange, Nat.sub_zero, cube_pass c,
      cube_itersLoop k (c / 3), hscale]

/-- Squared Euclidean norm of a point. -/
def sqNorm (p : Pt) : ℚ := p.x * p.x + p.y * p.y + p.z * p.z

/-- Sum over all vertices of the squared distance between a vertex position
and the arithmetic mean of its neighbours: the spec's "variance of vertex
positions relative to their neighbor averages". -/
def varianceToNeighborAvg (connected : ℕ → List ℕ) (positions : List Pt) : ℚ :=
  ((List.range positions.length).map fun v =>
    sqNorm ((positions.getD v Pt.zero).sub (specMean connected positions v))).sum

/-- Read a NaN-free buffer back as plain points (NaN mapped to the origin). -/
def toPts (l : List MPt) : List Pt :=
  l.map fun p =>
    match p with
    | .nan => Pt.zero
    | .pt q => q

theorem toPts_map_pt : ∀ l : List Pt, toPts (l.map MPt.pt) = l
  | [] => rfl
  | p :: rest => congrArg (p :: ·) (toPts_map_pt rest)

/-- The cube's variance at scale `c` is `(32/3) c²`. -/
theorem variance_cubeP (c : ℚ) :
    varianceToNeighborAvg cubeAdj (cubeP c) = 32 / 3 * (c * c) := by
  simp [varianceToNeighborAvg, cubeP, cubeAdj, specMean, sqNorm, List.range_succ,
    Pt.add, Pt.sub, Pt.smul, Pt.zero]
  ring_nf

/-- C9: on the cube (a closed, 3-regular topology at its geometric corners)
with uniform weight 1, strength 1, envelope 1 and one sub-step, the relax
output after `k` iterations is the cube contracted by `1/3^k`, and
increasing the iteration count strictly decreases the variance of the
vertex positions relative to their neighbour averages: the smoothing
converges and neither diverges nor oscillates. -/
theorem deform_cube_variance_decreases (k : ℕ) :
    relaxResult 8 cubeAdj cubeW ((cubeP 1).map MPt.pt) 1 1 k 1 =
      (cubeP (1 / 3 ^ k)).map MPt.pt ∧
    varianceToNeighborAvg cubeAdj
        (toPts (relaxResult 8 cubeAdj cubeW ((cubeP 1).map MPt.pt) 1 1 (k + 1) 1)) <
      varianceToNeighborAvg cubeAdj
        (toPts (relaxResult 8 cubeAdj cubeW ((cubeP 1).map MPt.pt) 1 1 k 1)) := by
  have hres : ∀ n : ℕ,
      relaxResult 8 cubeAdj cubeW ((cubeP 1).map MPt.pt) 1 1 n 1 =
        (cubeP (1 / 3 ^ n)).map MPt.pt := by
    intro n
    cases n with
    | zero => simp [relaxResult, deform]
    | succ j =>
      have hlen : ((cubeP (1 : ℚ)).map MPt.pt).length = 8 := by simp [cubeP]
      have hw : get_weighted_componenents 8 cubeW ≠ [] := by decide
      have hdef : deform 8 cubeAdj cubeW ((cubeP 1).map MPt.pt) 1 1 (j + 1) 1 =
          .ok (some ((cubeP (1 / 3 ^ (j + 1))).map MPt.pt)) := by
        unfold deform
        rw [if_neg one_ne_zero, if_neg (Nat.succ_ne_zero j), if_neg one_ne_zero,
          if_neg one_ne_zero, hlen]
        rw [if_neg hw, cube_itersLoop (j + 1) 1]
      unfold relaxResult
      rw [hdef]
  have hpos : ∀ n : ℕ, (0 : ℚ) < 3 ^ n := fun n =>
    pow_pos (by norm_num) n
  have hlt : (1 : ℚ) / 3 ^ (k + 1) < 1 / 3 ^ k := by
    apply one_div_lt_one_div_of_lt (hpos k)
    rw [pow_succ]
    nlinarith [hpos k]
  have hge : (0 : ℚ) ≤ 1 / 3 ^ (k + 1) := le_of_lt (by positivity)
  refine ⟨hres k, ?_⟩
  rw [hres k, hres (k + 1), toPts_map_pt, toPts_map_pt, variance_cubeP,
    variance_cubeP]
  have hsq := mul_self_lt_mul_self hge hlt
  nlinarith [hsq]
